import Mathlib

/-!
Verification of the remote file tailing/streaming reader of `dcos-log`
(`mesos/files/reader/read.go`), the journal entry formatters
(`journal/reader/formatters.go`) and the v2 discovery redirect
(`api/v2/discovery.go`).

Go byte strings are modelled as `List Nat` (one `Nat` per byte), Go `int`
as `Int` (no overflow is relevant at the magnitudes involved), and the
remote `files/read` HTTP endpoint as an oracle function that may fail
(`Except`).  All offset and length arithmetic follows the source line by
line.
-/

set_option autoImplicit false

/-- The fixed fetch chunk size, `chunkSize = 1 << 16` in `read.go`. -/
def chunkSize : Nat := 65536

/-- A produced log line, structure `Line` of the reader package:
message bytes, absolute byte offset in the source file and the message
length (excluding the terminator). -/
structure Line where
  message : List Nat
  offset : Int
  size : Nat
  deriving DecidableEq, Repr

/-- `strings.Split(s, "\n")` on byte lists: splits at every byte `10`;
always returns at least one (possibly empty) part. -/
def splitOnNl : List Nat → List (List Nat)
  | [] => [[]]
  | b :: rest =>
    if b = 10 then [] :: splitOnNl rest
    else
      match splitOnNl rest with
      | [] => [[b]]
      | p :: ps => (b :: p) :: ps

/-- Joining newline-terminated lines: `joinNl [m1, …, mk] = m1 ++ [10] ++ … ++ mk ++ [10]`. -/
def joinNl (ms : List (List Nat)) : List Nat :=
  ms.foldr (fun m acc => m ++ 10 :: acc) []

/-- The offset-annotating loop of `read` (lines 226–236 of `read.go`):
each line is annotated with `offset + accumulator` where the accumulator
advances by `len(message) + 1` per line. -/
def mkLines (base : Int) : List (List Nat) → Int → List Line
  | [], _ => []
  | m :: ms, acc => ⟨m, base + acc, m.length⟩ :: mkLines base ms (acc + m.length + 1)

/-- The pure line splitting part of `read` (lines 218–238 of `read.go`):
split the (already transformed) chunk on terminators; when more than one
part results, the final part is withheld and its length reported as
`delta`; otherwise `delta = 0` and the single part is kept as a line. -/
def splitChunk (data : List Nat) (offset : Int) : List Line × Nat :=
  let parts := splitOnNl data
  let delta := if parts.length > 1 then (parts.getLastD []).length else 0
  let kept := if parts.length > 1 then parts.dropLast else parts
  (mkLines offset kept 0, delta)

/-- Reconstruction of a chunk from the split result: each emitted message
followed by one terminator, then the withheld suffix of the chunk of the
reported trailing length. -/
def rejoinChunk (data : List Nat) (offset : Int) : List Nat :=
  let r := splitChunk data offset
  ((r.1.map (fun l => l.message ++ [10])).flatten) ++ data.drop (data.length - r.2)

theorem splitOnNl_ne_nil (l : List Nat) : splitOnNl l ≠ [] := by
  induction l with
  | nil => simp [splitOnNl]
  | cons b rest ih =>
    simp only [splitOnNl]
    split
    · simp
    · cases h : splitOnNl rest <;> simp

theorem intercalate_splitOnNl (l : List Nat) :
    ([10] : List Nat).intercalate (splitOnNl l) = l := by
  induction l with
  | nil => simp [splitOnNl, List.intercalate]
  | cons b rest ih =>
    simp only [splitOnNl]
    split
    · rename_i hb
      subst hb
      cases h : splitOnNl rest with
      | nil => exact absurd h (splitOnNl_ne_nil rest)
      | cons p ps =>
        rw [h] at ih
        simp [List.intercalate] at ih ⊢
        simpa using ih
    · cases h : splitOnNl rest with
      | nil => exact absurd h (splitOnNl_ne_nil rest)
      | cons p ps =>
        rw [h] at ih
        simp [List.intercalate] at ih ⊢
        cases ps with
        | nil => simpa using ih
        | cons q qs => simpa using ih

theorem splitOnNl_no_nl (l : List Nat) (h : (10 : Nat) ∉ l) : splitOnNl l = [l] := by
  induction l with
  | nil => simp [splitOnNl]
  | cons b rest ih =>
    simp only [List.mem_cons, not_or] at h
    have hb : ¬ b = 10 := fun e => h.1 e.symm
    simp only [splitOnNl, if_neg hb, ih h.2]

theorem splitOnNl_append_nl (l r : List Nat) (h : (10 : Nat) ∉ l) :
    splitOnNl (l ++ 10 :: r) = l :: splitOnNl r := by
  induction l with
  | nil => simp [splitOnNl]
  | cons b rest ih =>
    simp only [List.mem_cons, not_or] at h
    have hb : ¬ b = 10 := fun e => h.1 e.symm
    simp only [List.cons_append, splitOnNl, List.append_eq, if_neg hb, ih h.2]

theorem splitOnNl_length (l : List Nat) :
    (splitOnNl l).length = l.count 10 + 1 := by
  induction l with
  | nil => simp [splitOnNl]
  | cons b rest ih =>
    simp only [splitOnNl]
    split
    · rename_i hb
      subst hb
      simp [ih, List.count_cons]
    · rename_i hb
      cases h : splitOnNl rest with
      | nil => exact absurd h (splitOnNl_ne_nil rest)
      | cons p ps =>
        rw [h] at ih
        simp at ih
        simp [List.count_cons, hb, ih]

theorem splitOnNl_joinNl (ms : List (List Nat)) (h : ∀ m ∈ ms, (10 : Nat) ∉ m) :
    splitOnNl (joinNl ms) = ms ++ [[]] := by
  induction ms with
  | nil => simp [joinNl, splitOnNl]
  | cons m ms ih =>
    have hm : (10 : Nat) ∉ m := h m (by simp)
    have := splitOnNl_append_nl m (joinNl ms) hm
    simp only [joinNl, List.foldr_cons] at *
    rw [this, ih (fun x hx => h x (by simp [hx]))]
    simp

/-- Messages produced by the annotation loop are exactly the kept parts. -/
theorem mkLines_map_message (base : Int) (ms : List (List Nat)) (acc : Int) :
    (mkLines base ms acc).map Line.message = ms := by
  induction ms generalizing acc with
  | nil => simp [mkLines]
  | cons m ms ih => simp [mkLines, ih]

theorem mkLines_length (base : Int) (ms : List (List Nat)) (acc : Int) :
    (mkLines base ms acc).length = ms.length := by
  induction ms generalizing acc with
  | nil => simp [mkLines]
  | cons m ms ih => simp [mkLines, ih]

/-- Decomposing an intercalation: all parts but the last, each with one
terminator appended, followed by the last part. -/
theorem intercalate_eq_flatten_append (parts : List (List Nat)) (h : parts ≠ []) :
    ([10] : List Nat).intercalate parts =
      ((parts.dropLast.map (fun m => m ++ [10])).flatten) ++ parts.getLastD [] := by
  induction parts with
  | nil => exact absurd rfl h
  | cons p ps ih =>
    cases ps with
    | nil => simp [List.intercalate]
    | cons q qs =>
      have := ih (by simp)
      simp only [List.intercalate] at this ⊢
      simp only [List.intersperse] at this ⊢
      simp [this]


/-! ### Go rune-based string reversal (`reverse` in `read.go`)

`reverse` converts the byte string to `[]rune` (Go UTF-8 decoding, one
replacement rune U+FFFD per invalid byte), reverses the rune slice, and
re-encodes it.  We model Go's `utf8.DecodeRune` and rune encoding
byte-for-byte. -/

/-- The Unicode replacement rune U+FFFD produced for invalid input. -/
def runeError : Nat := 0xFFFD

/-- Go `utf8.DecodeRune` on a first byte plus the remaining bytes:
returns the decoded rune and the number of bytes consumed (at least 1). -/
def decode1 (b0 : Nat) (rest : List Nat) : Nat × Nat :=
  if b0 < 0x80 then (b0, 1)
  else if 0xC2 ≤ b0 ∧ b0 ≤ 0xDF then
    match rest with
    | b1 :: _ =>
      if 0x80 ≤ b1 ∧ b1 ≤ 0xBF then ((b0 % 0x20) * 64 + b1 % 0x40, 2)
      else (runeError, 1)
    | [] => (runeError, 1)
  else if 0xE0 ≤ b0 ∧ b0 ≤ 0xEF then
    match rest with
    | b1 :: b2 :: _ =>
      if (if b0 = 0xE0 then 0xA0 else 0x80) ≤ b1 ∧
          b1 ≤ (if b0 = 0xED then 0x9F else 0xBF) ∧
          0x80 ≤ b2 ∧ b2 ≤ 0xBF then
        ((b0 % 0x10) * 4096 + (b1 % 0x40) * 64 + b2 % 0x40, 3)
      else (runeError, 1)
    | _ => (runeError, 1)
  else if 0xF0 ≤ b0 ∧ b0 ≤ 0xF4 then
    match rest with
    | b1 :: b2 :: b3 :: _ =>
      if (if b0 = 0xF0 then 0x90 else 0x80) ≤ b1 ∧
          b1 ≤ (if b0 = 0xF4 then 0x8F else 0xBF) ∧
          0x80 ≤ b2 ∧ b2 ≤ 0xBF ∧ 0x80 ≤ b3 ∧ b3 ≤ 0xBF then
        ((b0 % 8) * 262144 + (b1 % 0x40) * 4096 + (b2 % 0x40) * 64 + b3 % 0x40, 4)
      else (runeError, 1)
    | _ => (runeError, 1)
  else (runeError, 1)

/-- Fueled decoding loop; each step consumes at least one byte, so fuel
equal to the byte count suffices. -/
def decodeRunesAux : Nat → List Nat → List Nat
  | 0, _ => []
  | _, [] => []
  | fuel + 1, b0 :: rest =>
    let d := decode1 b0 rest
    d.1 :: decodeRunesAux fuel ((b0 :: rest).drop d.2)

/-- Go `[]rune(s)` conversion on byte strings. -/
def decodeRunes (l : List Nat) : List Nat :=
  decodeRunesAux l.length l

/-- Go rune-to-UTF-8 encoding as performed by `string([]rune)`:
surrogates and out-of-range runes encode as the replacement character. -/
def encodeRune (r : Nat) : List Nat :=
  if r < 0x80 then [r]
  else if r < 0x800 then [0xC0 + r / 64, 0x80 + r % 64]
  else if (0xD800 ≤ r ∧ r ≤ 0xDFFF) ∨ 0x10FFFF < r then [0xEF, 0xBF, 0xBD]
  else if r < 0x10000 then [0xE0 + r / 4096, 0x80 + r / 64 % 64, 0x80 + r % 64]
  else [0xF0 + r / 262144, 0x80 + r / 4096 % 64, 0x80 + r / 64 % 64, 0x80 + r % 64]

/-- Go `string(runes)`. -/
def encodeRunes (rs : List Nat) : List Nat :=
  (rs.map encodeRune).flatten

/-- `reverse` of `read.go` (lines 296–302): decode to runes, reverse the
rune slice, re-encode. -/
def goReverse (s : List Nat) : List Nat :=
  encodeRunes (decodeRunes s).reverse

/-- On pure ASCII input the fueled decoder is the identity. -/
theorem decodeRunesAux_ascii (fuel : Nat) (l : List Nat) (hf : l.length ≤ fuel)
    (h : ∀ b ∈ l, b < 128) : decodeRunesAux fuel l = l := by
  induction fuel generalizing l with
  | zero =>
    cases l with
    | nil => rfl
    | cons b rest => simp at hf
  | succ fuel ih =>
    cases l with
    | nil => rfl
    | cons b rest =>
      have hb : b < 128 := h b (by simp)
      have hd : decode1 b rest = (b, 1) := by simp [decode1, hb]
      simp only [decodeRunesAux, hd, List.drop_succ_cons, List.drop_zero]
      rw [ih rest (by simpa using Nat.le_of_succ_le_succ (by simpa using hf))
        (fun x hx => h x (by simp [hx]))]

/-- On pure ASCII input, Go's rune-based reversal is exact byte reversal. -/
theorem goReverse_ascii (s : List Nat) (h : ∀ b ∈ s, b < 128) :
    goReverse s = s.reverse := by
  have hdec : decodeRunes s = s := decodeRunesAux_ascii s.length s le_rfl h
  have henc : ∀ l : List Nat, (∀ b ∈ l, b < 128) → encodeRunes l = l := by
    intro l hl
    induction l with
    | nil => rfl
    | cons b rest ih =>
      have hb : b < 128 := hl b (by simp)
      simp only [encodeRunes, List.map_cons, List.flatten_cons] at ih ⊢
      rw [ih (fun x hx => hl x (by simp [hx]))]
      simp [encodeRune, hb]
  rw [goReverse, hdec, henc s.reverse (fun b hb => h b (List.mem_reverse.mp hb))]

/-- Total byte length of an encoded rune list is the sum of the per-rune
encoded lengths. -/
theorem encodeRunes_length (rs : List Nat) :
    (encodeRunes rs).length = (rs.map (fun r => (encodeRune r).length)).sum := by
  induction rs with
  | nil => rfl
  | cons r rest ih =>
    simp only [encodeRunes, List.map_cons, List.flatten_cons, List.length_append,
      List.sum_cons] at ih ⊢
    rw [ih]

/-- Reversing the rune list never changes the total encoded byte length. -/
theorem encodeRunes_reverse_length (rs : List Nat) :
    (encodeRunes rs.reverse).length = (encodeRunes rs).length := by
  rw [encodeRunes_length, encodeRunes_length, List.map_reverse, List.sum_reverse]

/-! ### The remote endpoint oracle and the `ReadManager` state -/

/-- Decoded JSON body of the `files/read` endpoint (`response` in
`read.go`): the returned bytes and the echoed offset (or, for a size
probe with request offset `-1`, the total file size). -/
structure RResponse where
  data : List Nat
  offset : Int
  deriving DecidableEq, Repr

/-- Construction / pull errors.  `emptyParam` is `ErrEmptyParam`;
`badMaxLines` is the construction error for a non-positive line limit
(carried by an option, see `newLineReader`); `fetch` stands for any
transport / status / decoding error of one HTTP fetch; `fuel` marks
model fuel exhaustion (the Go loop would still be running). -/
inductive RErr where
  | emptyParam
  | badMaxLines
  | fetch
  | fuel
  deriving DecidableEq, Repr

/-- The remote endpoint as an oracle: a request `(offset, length)` either
fails or yields a response.  `offset = -1` is the size probe issued by
`fileLen`. -/
def Oracle : Type := Int → Int → Except Unit RResponse

/-- The oracle describing a healthy endpoint serving the fixed file
`file`: a size probe reports the byte length; a read at `offset ≥ 0`
returns up to `length` bytes from that position; negative read offsets
are rejected. -/
def fileOracle (file : List Nat) : Oracle := fun offset length =>
  if offset = -1 then .ok ⟨[], (file.length : Int)⟩
  else if offset < 0 then .error ()
  else .ok ⟨(file.drop offset.toNat).take length.toNat, offset⟩

/-- An oracle whose every request fails (unreachable or broken master). -/
def failOracle : Oracle := fun _ _ => .error ()

/-- `ReadManager.read` (lines 193–239 of `read.go`): fetch `chunkSize`
bytes at `offset`, apply the modifier, split into lines with absolute
offsets, and report the withheld trailing length. -/
def readStep (fetch : Oracle) (offset : Int) (modifier : List Nat → List Nat) :
    Except Unit (List Line × Nat) :=
  match fetch offset (chunkSize : Int) with
  | .error e => .error e
  | .ok resp => .ok (splitChunk (modifier resp.data) offset)

/-- `ReadDirection` of `read.go`. -/
inductive ReadDirection where
  | topToBottom
  | bottomToTop
  deriving DecidableEq, Repr

/-- The cursor state, struct `ReadManager` of `read.go` (fields the
claims touch; the HTTP client, headers and the pluggable formatter are
not part of the state the claims quantify over — the formatter is a pure
post-map on each popped line). -/
structure RM where
  sandboxPath : String
  file : String
  readDirection : ReadDirection
  n : Int
  offset : Int
  lines : List Line
  readLines : Int
  stream : Bool
  deriving DecidableEq, Repr

/-- `notEmpty` of `read.go`: errors when the argument list is empty or
contains an empty string. -/
def notEmpty (args : List String) : Bool :=
  decide (args ≠ [] ∧ ∀ a ∈ args, a ≠ "")

/-- Sum of `len(line.Message) + 1` over the last `diff` fetched lines —
the inner `for` loop of `NewLineReader` (lines 98–100 of `read.go`). -/
def tailLinesLen (lines : List Line) (diff : Int) : Int :=
  ((lines.drop (lines.length - diff.toNat)).map
    (fun l => (l.message.length : Int) + 1)).sum

/-- The backward locator loop of `NewLineReader` (lines 82–110 of
`read.go`), fueled: arguments are the loop variable `offset`, the
counter `foundLines` and the current `rm.offset`; returns the final
`rm.offset`. -/
def locatorLoop (fetch : Oracle) (n : Int) :
    Nat → Int → Int → Int → Except RErr Int
  | 0, _, _, _ => .error .fuel
  | fuel + 1, offset, foundLines, rmOffset =>
    if offset < 1 then .ok 0
    else
      match readStep fetch offset goReverse with
      | .error _ => .error .fetch
      | .ok (lines, delta) =>
        if foundLines + (lines.length : Int) ≥ n then
          .ok (rmOffset - tailLinesLen lines (n - foundLines))
        else
          locatorLoop fetch n fuel (offset - ((chunkSize : Int) - (delta : Int)))
            (foundLines + (lines.length : Int))
            (offset - ((chunkSize : Int) - (delta : Int)))

/-- `NewLineReader` (lines 42–114 of `read.go`).  The required
coordinates are validated, the sandbox path is assembled, the options
are applied, and for `BottomToTop` the size probe plus backward locator
fix the initial offset.

The repository's option constructors are not under `src/`.  Modelled
from the spec: the applied options set `direction`, `maxLines` (the
field `n`) and `stream`, and a requested `maxLines ≤ 0` is a
construction error, reported by the option after the coordinate
validation. -/
def newLineReader (fetch : Oracle) (agentID frameworkID executorID containerID taskPath file : String)
    (direction : ReadDirection) (maxLines : Int) (stream : Bool) (fuel : Nat) :
    Except RErr RM :=
  if ¬ notEmpty [agentID, frameworkID, executorID, containerID] then .error .emptyParam
  else if maxLines ≤ 0 then .error .badMaxLines
  else
    let sandboxPath :=
      "/var/lib/mesos/slave/slaves/" ++ agentID ++ "/frameworks/" ++ frameworkID ++
        "/executors/" ++ executorID ++ "/runs/" ++ containerID ++ "/" ++
        (if taskPath ≠ "" then "tasks/" ++ taskPath ++ "/" else "")
    let rm : RM :=
      { sandboxPath := sandboxPath, file := file, readDirection := direction,
        n := maxLines, offset := 0, lines := [], readLines := 0, stream := stream }
    if direction = .bottomToTop then
      match fetch (-1) 0 with
      | .error _ => .error .fetch
      | .ok resp =>
        let size := resp.offset
        match locatorLoop fetch maxLines fuel (size - (chunkSize : Int)) 0 size with
        | .error e => .error e
        | .ok o => .ok { rm with offset := o }
    else .ok rm

/-- Result of one `Read` call: a popped line, the `io.EOF` sentinel, or
a fetch error. -/
inductive PullResult where
  | line (l : Line)
  | eof
  | err
  deriving DecidableEq, Repr

/-- Total length `len(message) + 1` of the freshly fetched lines, the
`linesLen` accumulator of `Read` (lines 273–277 of `read.go`). -/
def linesLenOf (ls : List Line) : Nat :=
  (ls.map (fun l => l.message.length + 1)).sum

/-- The buffer refill of `Read` (lines 266–285 of `read.go`): when the
buffer is empty a chunk is fetched at the current offset; if it splits
into more than one line the lines are prepended to the buffer in order
and the offset advances (`linesLen - 1`, or `chunkSize - delta - 1` for
a full chunk); otherwise the state is unchanged. -/
def refill (fetch : Oracle) (rm : RM) : Except Unit RM :=
  match readStep fetch rm.offset id with
  | .error e => .error e
  | .ok (lines, delta) =>
    if lines.length > 1 then
      let rm1 := { rm with lines := lines.reverse ++ rm.lines }
      if (linesLenOf lines : Int) < (chunkSize : Int) then
        .ok { rm1 with offset := rm.offset + (linesLenOf lines : Int) - 1 }
      else
        .ok { rm1 with offset := rm.offset + (chunkSize : Int) - (delta : Int) - 1 }
    else .ok rm

/-- The body of `Read` after the line-limit gate: refill the buffer if
empty, pop the last buffered line (`Pop`), treat a missing or empty
message as `io.EOF`, otherwise count and emit the line.  The third
component records whether this call issued a fetch. -/
def pullCore (fetch : Oracle) (rm : RM) : PullResult × RM × Bool :=
  let fetched := rm.lines.isEmpty
  match (if rm.lines.isEmpty then refill fetch rm else .ok rm) with
  | .error _ => (.err, rm, fetched)
  | .ok rm1 =>
    match rm1.lines.getLast? with
    | none => (.eof, rm1, fetched)
    | some l =>
      let rm2 := { rm1 with lines := rm1.lines.dropLast }
      if l.message = [] then (.eof, rm2, fetched)
      else (.line l, { rm2 with readLines := rm2.readLines + 1 }, fetched)

/-- `Read` (lines 261–294 of `read.go`): in non-streaming mode a cursor
that has already emitted `n` lines reports `io.EOF` immediately; all
other calls run the body. -/
def pull (fetch : Oracle) (rm : RM) : PullResult × RM × Bool :=
  if rm.stream = false ∧ rm.readLines = rm.n then (.eof, rm, false)
  else pullCore fetch rm

/-- How a sequence of pulls ends. -/
inductive EndR where
  | eof
  | err
  | fuelOut
  deriving DecidableEq, Repr

/-- Pull repeatedly, collecting emitted messages, until a non-line
result (or fuel runs out). -/
def pullMsgs (fetch : Oracle) : Nat → RM → List (List Nat) × EndR
  | 0, _ => ([], .fuelOut)
  | fuel + 1, rm =>
    match pull fetch rm with
    | (.line l, rm1, _) =>
      let r := pullMsgs fetch fuel rm1
      (l.message :: r.1, r.2)
    | (.eof, _, _) => ([], .eof)
    | (.err, _, _) => ([], .err)

/-! ### Claim C2 — splitter reconstruction and the trailing partial -/

/-- C2 (counterexample): for the chunk consisting of the single byte
`97` (no terminator anywhere), the splitter emits the unterminated
fragment as a Line with trailing-partial length 0, and rejoining the
emitted line, its terminator and the (empty) withheld fragment yields
`[97, 10]`, not the original chunk.  The claim fails as stated. -/
theorem C2_counterexample :
    rejoinChunk [97] 0 ≠ [97] ∧ (splitChunk [97] 0).2 = 0 ∧
      (splitChunk [97] 0).1.map Line.message = [[97]] := by decide

/-- C2 (amended): for every chunk containing at least one terminator and
every base offset, rejoining each emitted message followed by one
terminator and then the withheld trailing fragment of the reported
length reconstructs the chunk exactly; the emitted messages are all
split parts except the final fragment, which is withheld and its length
reported.  (A chunk with no terminator at all is instead emitted whole
as a single Line with trailing-partial length 0.) -/
theorem C2_amended (data : List Nat) (offset : Int) (h : (10 : Nat) ∈ data) :
    rejoinChunk data offset = data ∧
      (splitChunk data offset).1.map Line.message = (splitOnNl data).dropLast ∧
      (splitChunk data offset).2 = ((splitOnNl data).getLastD []).length := by
  have hcount : 0 < data.count 10 := List.count_pos_iff.mpr h
  have hlen : (splitOnNl data).length > 1 := by
    rw [splitOnNl_length]; omega
  have hid := intercalate_splitOnNl data
  have hdec := intercalate_eq_flatten_append (splitOnNl data) (splitOnNl_ne_nil data)
  constructor
  · show rejoinChunk data offset = data
    rw [rejoinChunk, splitChunk]
    simp only [if_pos hlen]
    have hmm : (mkLines offset (splitOnNl data).dropLast 0).map (fun l => l.message ++ [10]) =
        ((splitOnNl data).dropLast).map (fun m => m ++ [10]) := by
      rw [show (fun (l : Line) => l.message ++ [10]) =
        ((fun m => m ++ [10]) ∘ Line.message) from rfl]
      rw [← List.map_map, mkLines_map_message]
    rw [hmm]
    have hdata : data =
        (((splitOnNl data).dropLast.map (fun m => m ++ [10])).flatten) ++
          (splitOnNl data).getLastD [] := by
      rw [← hdec, hid]
    have hdrop : ∀ front last : List Nat, data = front ++ last →
        data.drop (data.length - last.length) = last := by
      intro front last hfl
      rw [hfl, List.length_append, Nat.add_sub_cancel, List.drop_left]
    rw [hdrop _ _ hdata, ← hdata]
  · constructor
    · rw [splitChunk]
      simp only [if_pos hlen]
      exact mkLines_map_message _ _ _
    · rw [splitChunk]
      simp only [if_pos hlen]

/-- C2 (witness): the amended statement at the concrete chunk
`[97, 10, 98]` with base offset 7. -/
theorem C2_witness :
    (10 : Nat) ∈ [97, 10, 98] ∧ rejoinChunk [97, 10, 98] 7 = [97, 10, 98] :=
  ⟨by decide, (C2_amended [97, 10, 98] 7 (by decide)).1⟩

/-! ### Claim C1 — backward locator initial offset -/

/-- C1 (counterexample): for the remote file `"a\nb\nc\nd\n"` and tail
request N = 2, `BottomToTop` construction sets the initial offset to 0,
not to 4 (the byte index of `"c"`, the start of line k−N+1): the file is
smaller than one chunk, so the locator loop immediately takes its
`offset < 1` branch. -/
theorem C1_counterexample :
    (newLineReader (fileOracle [97, 10, 98, 10, 99, 10, 100, 10]) "agent" "fw" "exec" "cont" ""
        "stdout" .bottomToTop 2 false 1).toOption.map RM.offset = some 0 ∧
      (some (0 : Int) ≠ some (4 : Int)) := by decide

/-- C1 (amended): for every remote file of size at most one chunk
(65536 bytes) and every tail request, `BottomToTop` construction sets
the cursor's initial offset to 0 — the whole file is then read — rather
than to the start of line k−N+1; in particular for `"a\nb\nc\nd\n"` and
N = 2 the resulting offset is 0, not the byte index of `"c"`. -/
theorem C1_amended (file : List Nat)
    (agentID frameworkID executorID containerID taskPath fname : String)
    (maxLines : Int) (stream : Bool) (fuel : Nat)
    (ha : agentID ≠ "") (hf : frameworkID ≠ "") (he : executorID ≠ "")
    (hc : containerID ≠ "") (hml : 0 < maxLines) (hsz : file.length ≤ chunkSize) :
    (newLineReader (fileOracle file) agentID frameworkID executorID containerID taskPath fname
        .bottomToTop maxLines stream (fuel + 1)).toOption.map RM.offset = some 0 := by
  have hne : notEmpty [agentID, frameworkID, executorID, containerID] = true := by
    simp [notEmpty, ha, hf, he, hc]
  have hloop : locatorLoop (fileOracle file) maxLines (fuel + 1)
      ((file.length : Int) - (chunkSize : Int)) 0 (file.length : Int) = .ok 0 := by
    rw [locatorLoop]
    rw [if_pos]
    have : (file.length : Int) ≤ (chunkSize : Int) := by exact_mod_cast hsz
    omega
  rw [newLineReader, hne]
  simp only [not_true_eq_false, if_false, Bool.true_eq_false, reduceIte]
  rw [if_neg (by omega)]
  simp only [reduceIte, fileOracle, reduceCtorEq]
  rw [hloop]
  rfl

/-- C1 (witness): the amended statement at the concrete file
`"a\nb\nc\nd\n"` with N = 2. -/
theorem C1_witness :
    ("agent" : String) ≠ "" ∧ (0 : Int) < 2 ∧
      ([97, 10, 98, 10, 99, 10, 100, 10] : List Nat).length ≤ chunkSize ∧
      (newLineReader (fileOracle [97, 10, 98, 10, 99, 10, 100, 10]) "agent" "fw" "exec" "cont" ""
          "stdout" .bottomToTop 2 false 1).toOption.map RM.offset = some 0 :=
  ⟨by decide, by decide, by decide,
    C1_amended [97, 10, 98, 10, 99, 10, 100, 10] "agent" "fw" "exec" "cont" "" "stdout" 2 false 0
      (by decide) (by decide) (by decide) (by decide) (by decide) (by decide)⟩

/-! ### Claims C4 and C5 — the line limit and the streaming sentinel -/

/-- A successful refill never changes the emitted-line counter. -/
theorem refill_readLines (fetch : Oracle) (rm rm1 : RM)
    (h : refill fetch rm = .ok rm1) : rm1.readLines = rm.readLines := by
  rw [refill] at h
  rcases hr : readStep fetch rm.offset id with e | p
  · rw [hr] at h
    cases h
  · rw [hr] at h
    obtain ⟨lines, delta⟩ := p
    simp only at h
    split at h
    · split at h <;> (simp only [Except.ok.injEq] at h; subst h; rfl)
    · simp only [Except.ok.injEq] at h
      subst h
      rfl

/-- One call of the `Read` body increments the emitted-line counter by at
most one. -/
theorem pullCore_readLines_le (fetch : Oracle) (rm : RM) :
    (pullCore fetch rm).2.1.readLines ≤ rm.readLines + 1 := by
  rw [pullCore]
  simp only
  split
  · simp
  · rename_i rm1 hre
    have h1 : rm1.readLines = rm.readLines := by
      split at hre
      · exact refill_readLines _ _ _ hre
      · simp only [Except.ok.injEq] at hre
        subst hre
        rfl
    split
    · simp [h1]
    · split <;> simp [h1]

/-- C4: in non-streaming mode, a cursor that has emitted `maxLines`
lines answers every further pull with the `io.EOF` sentinel immediately,
with no fetch and no state change, regardless of remaining remote
content (the statement holds for every oracle); the emitted-line counter
never exceeds `maxLines`; and a pull with the counter strictly below the
limit is never suppressed by the limit — it runs the full `Read` body. -/
theorem C4_nonstream_limit :
    (∀ (fetch : Oracle) (rm : RM), rm.stream = false → rm.readLines = rm.n →
      pull fetch rm = (.eof, rm, false)) ∧
    (∀ (fetch : Oracle) (rm : RM), rm.stream = false → rm.readLines ≤ rm.n →
      (pull fetch rm).2.1.readLines ≤ rm.n) ∧
    (∀ (fetch : Oracle) (rm : RM), rm.readLines ≠ rm.n →
      pull fetch rm = pullCore fetch rm) := by
  refine ⟨?_, ?_, ?_⟩
  · intro fetch rm hs hn
    rw [pull, if_pos ⟨hs, hn⟩]
  · intro fetch rm hs hn
    by_cases he : rm.readLines = rm.n
    · rw [pull, if_pos ⟨hs, he⟩]
      exact hn
    · rw [pull, if_neg (by tauto)]
      have := pullCore_readLines_le fetch rm
      omega
  · intro fetch rm hn
    rw [pull, if_neg (by tauto)]

/-- C4 (witness): the three parts at concrete cursors against a concrete
remote file with more content than the limit allows. -/
theorem C4_witness :
    pull (fileOracle [97, 10, 98, 10]) ⟨"", "", .topToBottom, 1, 0, [], 1, false⟩ =
        (.eof, ⟨"", "", .topToBottom, 1, 0, [], 1, false⟩, false) ∧
      (pull (fileOracle [97, 10, 98, 10]) ⟨"", "", .topToBottom, 3, 0, [], 1, false⟩).2.1.readLines ≤ 3 ∧
      pull (fileOracle [97, 10, 98, 10]) ⟨"", "", .topToBottom, 3, 0, [], 1, false⟩ =
        pullCore (fileOracle [97, 10, 98, 10]) ⟨"", "", .topToBottom, 3, 0, [], 1, false⟩ :=
  ⟨C4_nonstream_limit.1 _ _ rfl rfl,
    C4_nonstream_limit.2.1 _ _ rfl (by decide),
    C4_nonstream_limit.2.2 _ _ (by decide)⟩

/-- C5 (counterexample): a streaming pull whose refill fetch yields
exactly one line (remote data `"x\n"`, one complete terminated line)
returns the `io.EOF` sentinel instead of that line: the refill only
keeps fetched lines when more than one was split. -/
theorem C5_counterexample :
    (pull (fileOracle [120, 10]) ⟨"", "", .topToBottom, 5, 0, [], 0, true⟩).1 = .eof ∧
      (readStep (fileOracle [120, 10]) 0 id).toOption.map (fun p => p.1) =
        some [⟨[120], 0, 1⟩] := by decide

/-- C5 (amended): in streaming mode the `maxLines` gate is skipped
entirely — every streaming pull runs the full `Read` body, so the limit
never causes `endOfData`; and a streaming pull on an empty buffer
returns `endOfData` exactly when, after the refill (which adds the
fetched lines only when the fetch split into more than one), the buffer
is still empty or its next line to pop has an empty message.  In
particular a refill fetch yielding exactly one line, or a popped empty
message, yields `endOfData` even though the fetch produced lines. -/
theorem C5_stream_eof :
    (∀ (fetch : Oracle) (rm : RM), rm.stream = true →
      pull fetch rm = pullCore fetch rm) ∧
    (∀ (file : List Nat) (rm rm1 : RM), rm.stream = true → rm.lines = [] →
      refill (fileOracle file) rm = .ok rm1 →
      ((pull (fileOracle file) rm).1 = .eof ↔
        (rm1.lines = [] ∨ (rm1.lines.getLastD ⟨[], 0, 0⟩).message = []))) := by
  constructor
  · intro fetch rm hs
    rw [pull, if_neg (by simp [hs])]
  · intro file rm rm1 hs hl hre
    rw [pull, if_neg (by simp [hs]), pullCore]
    simp only [hl, List.isEmpty_nil, if_true, hre]
    rcases hg : rm1.lines.getLast? with _ | l
    · simp only
      have : rm1.lines = [] := List.getLast?_eq_none_iff.mp hg
      simp [this]
    · have hne2 : rm1.lines ≠ [] := by
        intro hcon
        rw [hcon] at hg
        cases hg
      have hd : rm1.lines.getLastD ⟨[], 0, 0⟩ = l := by
        rw [List.getLastD_eq_getLast?, hg]
        rfl
      simp only [hd]
      split
      · rename_i hm
        simp [hne2, hm]
      · rename_i hm
        simp [hne2, hm]

/-- C5 (witness): the amended statement at the concrete remote file
`"x\n"` and a fresh streaming cursor. -/
theorem C5_witness :
    pull (fileOracle [120, 10]) ⟨"", "", .topToBottom, 5, 0, [], 0, true⟩ =
        pullCore (fileOracle [120, 10]) ⟨"", "", .topToBottom, 5, 0, [], 0, true⟩ ∧
      ((pull (fileOracle [120, 10]) ⟨"", "", .topToBottom, 5, 0, [], 0, true⟩).1 = .eof ↔
        ((⟨"", "", .topToBottom, 5, 0, [], 0, true⟩ : RM).lines = [] ∨
          ((⟨"", "", .topToBottom, 5, 0, [], 0, true⟩ : RM).lines.getLastD
            ⟨[], 0, 0⟩).message = [])) :=
  ⟨C5_stream_eof.1 _ _ rfl, C5_stream_eof.2 [120, 10] _ _ rfl rfl (by rfl)⟩

/-! ### Claim C3 — full forward replay of a file -/

theorem joinNl_length (ms : List (List Nat)) :
    (joinNl ms).length = (ms.map (fun m => m.length + 1)).sum := by
  induction ms with
  | nil => rfl
  | cons m t ih =>
    simp only [joinNl, List.foldr_cons, List.length_append, List.length_cons,
      List.map_cons, List.sum_cons] at *
    omega

theorem linesLenOf_mkLines (base : Int) (ms : List (List Nat)) (acc : Int) :
    linesLenOf (mkLines base ms acc) = (ms.map (fun m => m.length + 1)).sum := by
  induction ms generalizing acc with
  | nil => rfl
  | cons m t ih =>
    have hstep : linesLenOf (mkLines base (m :: t) acc) =
        (m.length + 1) + linesLenOf (mkLines base t (acc + m.length + 1)) := rfl
    rw [hstep, ih, List.map_cons, List.sum_cons]

theorem mem_mkLines_message (base : Int) (ms : List (List Nat)) (acc : Int) (l : Line)
    (h : l ∈ mkLines base ms acc) : l.message ∈ ms := by
  induction ms generalizing acc with
  | nil => simp [mkLines] at h
  | cons m t ih =>
    simp only [mkLines, List.mem_cons] at h
    rcases h with h | h
    · subst h
      simp
    · simp [ih _ h]

/-- Every nonempty terminated join ends with a terminator byte. -/
theorem joinNl_ends_nl (ms : List (List Nat)) (h : ms ≠ []) :
    ∃ front : List Nat, joinNl ms = front ++ [10] := by
  induction ms with
  | nil => exact absurd rfl h
  | cons m t ih =>
    cases t with
    | nil => exact ⟨m, by simp [joinNl]⟩
    | cons m2 t2 =>
      obtain ⟨front, hf⟩ := ih (by simp)
      refine ⟨m ++ 10 :: front, ?_⟩
      simp only [joinNl, List.foldr_cons] at hf ⊢
      rw [hf]
      simp

/-- Draining a nonempty buffer: while the buffer holds only lines with
nonempty messages, each streaming pull pops the next line in order
without fetching, and the pull sequence continues from the drained
state. -/
theorem pullMsgs_drain (fetch : Oracle) (L : List Line)
    (hm : ∀ l ∈ L, l.message ≠ []) :
    ∀ (sp fl : String) (rd : ReadDirection) (n off rl : Int) (j : Nat),
      pullMsgs fetch (L.length + j) ⟨sp, fl, rd, n, off, L.reverse, rl, true⟩ =
        ((L.map Line.message) ++
            (pullMsgs fetch j ⟨sp, fl, rd, n, off, [], rl + (L.length : Int), true⟩).1,
          (pullMsgs fetch j ⟨sp, fl, rd, n, off, [], rl + (L.length : Int), true⟩).2) := by
  induction L with
  | nil =>
    intro sp fl rd n off rl j
    simp only [List.length_nil, Nat.zero_add, List.map_nil, List.nil_append,
      List.reverse_nil, Nat.cast_zero, add_zero]
  | cons l L ih =>
    intro sp fl rd n off rl j
    have hmsg : l.message ≠ [] := hm l (by simp)
    have hie : (L.reverse ++ [l]).isEmpty = false := by
      simp [List.isEmpty_iff]
    have hpull : pull fetch ⟨sp, fl, rd, n, off, (l :: L).reverse, rl, true⟩ =
        (.line l, ⟨sp, fl, rd, n, off, L.reverse, rl + 1, true⟩, false) := by
      rw [pull, if_neg (by simp), pullCore]
      simp only [List.reverse_cons, hie, Bool.false_eq_true, if_false,
        List.getLast?_concat, List.dropLast_concat]
      rw [if_neg hmsg]
    have hfuel : (l :: L).length + j = (L.length + j) + 1 := by
      simp [Nat.add_assoc, Nat.add_comm, Nat.add_left_comm]
    rw [hfuel, pullMsgs, hpull]
    simp only
    rw [ih (fun x hx => hm x (by simp [hx])) sp fl rd n off (rl + 1) j]
    have harg : (⟨sp, fl, rd, n, off, [], rl + 1 + (L.length : Int), true⟩ : RM) =
        ⟨sp, fl, rd, n, off, [], rl + ((l :: L).length : Int), true⟩ := by
      simp only [RM.mk.injEq, List.length_cons, and_true, true_and]
      push_cast
      ring
    rw [harg]
    simp

/-- C3 (counterexample): for the remote file `"a\n\nb\n"` (three lines,
the second empty) a `TopToBottom` cursor at offset 0 with ample line
limit emits only `"a"` and then reports `endOfData`: the empty line is
treated as the end-of-file sentinel and `"b"` is dropped.  The claim
fails as stated for files containing empty lines. -/
theorem C3_counterexample :
    pullMsgs (fileOracle [97, 10, 10, 98, 10]) 5 ⟨"", "", .topToBottom, 10, 0, [], 0, false⟩ =
      ([[97]], .eof) ∧ ([[97]] : List (List Nat)) ≠ [[97], [], [98]] := by decide

/-- C3 (amended): for every remote file consisting of at least two
newline-terminated nonempty lines and fitting in one chunk, a cursor at
offset 0 with no effective line limit (streaming mode) emits every line
of the file exactly once, in original order, and then reports
`endOfData`.  (Files with empty lines stop early at the empty line;
a single-line file emits nothing; content past the first chunk boundary
is cut off at an empty split artifact.) -/
theorem C3_replay (ms : List (List Nat)) (h2 : 2 ≤ ms.length)
    (hm : ∀ m ∈ ms, m ≠ [] ∧ (10 : Nat) ∉ m)
    (hsz : (joinNl ms).length ≤ chunkSize) :
    pullMsgs (fileOracle (joinNl ms)) (ms.length + 1)
      ⟨"", "", .topToBottom, 0, 0, [], 0, true⟩ = (ms, .eof) := by
  obtain ⟨m0, mt, rfl⟩ : ∃ m0 mt, ms = m0 :: mt := by
    cases ms with
    | nil => simp at h2
    | cons a t => exact ⟨a, t, rfl⟩
  have h2n : 1 ≤ mt.length := by simpa using h2
  have hparts : splitOnNl (joinNl (m0 :: mt)) = (m0 :: mt) ++ [[]] :=
    splitOnNl_joinNl _ (fun m hmm => (hm m hmm).2)
  have hlen1 : 1 ≤ (joinNl (m0 :: mt)).length := by
    rw [joinNl_length]
    simp only [List.map_cons, List.sum_cons]
    omega
  -- Step A: the first fetch returns the whole file
  have hread0 : readStep (fileOracle (joinNl (m0 :: mt))) 0 id =
      .ok (mkLines 0 (m0 :: mt) 0, 0) := by
    rw [readStep, fileOracle]
    rw [if_neg (by decide), if_neg (by decide)]
    have hdata : ((joinNl (m0 :: mt)).drop (0 : Int).toNat).take ((chunkSize : Int)).toNat =
        joinNl (m0 :: mt) := by
      simp only [Int.toNat_zero, List.drop_zero, Int.toNat_natCast]
      exact List.take_of_length_le hsz
    simp only [hdata, id_eq]
    congr 1
    rw [splitChunk]
    simp only [hparts]
    rw [if_pos (by simp), if_pos (by simp)]
    simp only [List.dropLast_concat, List.getLastD_concat, List.length_nil]
  -- Step B: the first refill loads all lines and advances the offset to size - 1
  have hmkl : (mkLines 0 (m0 :: mt) 0).length = mt.length + 1 := by
    rw [mkLines_length]
    rfl
  have hll : (linesLenOf (mkLines 0 (m0 :: mt) 0) : Int) = ((joinNl (m0 :: mt)).length : Int) := by
    rw [linesLenOf_mkLines, joinNl_length]
  have hrefill : refill (fileOracle (joinNl (m0 :: mt))) ⟨"", "", .topToBottom, 0, 0, [], 0, true⟩ =
      .ok ⟨"", "", .topToBottom, 0, ((joinNl (m0 :: mt)).length : Int) - 1,
        (mkLines 0 (m0 :: mt) 0).reverse, 0, true⟩ := by
    rw [refill, hread0]
    simp only
    rw [if_pos (show (mkLines 0 (m0 :: mt) 0).length > 1 from by rw [hmkl]; omega)]
    by_cases hc : (linesLenOf (mkLines 0 (m0 :: mt) 0) : Int) < (chunkSize : Int)
    · rw [if_pos hc]
      simp only [Except.ok.injEq, RM.mk.injEq, and_true, true_and, List.append_nil]
      rw [hll]
      ring
    · rw [if_neg hc]
      have hceq : ((joinNl (m0 :: mt)).length : Int) = (chunkSize : Int) := by
        rw [hll] at hc
        have : ((joinNl (m0 :: mt)).length : Int) ≤ (chunkSize : Int) := by exact_mod_cast hsz
        omega
      simp only [Except.ok.injEq, RM.mk.injEq, and_true, true_and, List.append_nil]
      rw [hceq]
      push_cast
      ring
  -- Step C: the first pull emits the first line and leaves the rest buffered
  have hmk : mkLines 0 (m0 :: mt) 0 =
      ⟨m0, 0 + 0, m0.length⟩ :: mkLines 0 mt (0 + (m0.length : Int) + 1) := rfl
  have hpull1 : pull (fileOracle (joinNl (m0 :: mt))) ⟨"", "", .topToBottom, 0, 0, [], 0, true⟩ =
      (.line ⟨m0, 0 + 0, m0.length⟩,
        ⟨"", "", .topToBottom, 0, ((joinNl (m0 :: mt)).length : Int) - 1,
          (mkLines 0 mt (0 + (m0.length : Int) + 1)).reverse, 0 + 1, true⟩,
        true) := by
    rw [pull, if_neg (by simp), pullCore]
    simp only [List.isEmpty_nil, if_true, hrefill]
    rw [hmk]
    simp only [List.getLast?_reverse, List.head?_cons, List.dropLast_reverse, List.tail_cons]
    rw [if_neg ((hm m0 (by simp)).1)]
  -- Step D: draining the buffered lines
  have hmem : ∀ l ∈ mkLines 0 mt (0 + (m0.length : Int) + 1), l.message ≠ [] := by
    intro l hl
    exact (hm l.message (List.mem_cons_of_mem _ (mem_mkLines_message _ _ _ _ hl))).1
  have hdrain := pullMsgs_drain (fileOracle (joinNl (m0 :: mt)))
    (mkLines 0 mt (0 + (m0.length : Int) + 1)) hmem
    "" "" .topToBottom 0 (((joinNl (m0 :: mt)).length : Int) - 1) (0 + 1) 1
  -- Step E: the final pull fetches only the trailing terminator and reports EOF
  obtain ⟨front, hfr⟩ := joinNl_ends_nl (m0 :: mt) (by simp)
  have hfl : (joinNl (m0 :: mt)).length = front.length + 1 := by
    rw [hfr]
    simp
  have hlen1i : (1 : Int) ≤ ((joinNl (m0 :: mt)).length : Int) := by exact_mod_cast hlen1
  have hdropE : ((joinNl (m0 :: mt)).drop ((((joinNl (m0 :: mt)).length : Int) - 1).toNat)) =
      [10] := by
    have htn : ((((joinNl (m0 :: mt)).length : Int)) - 1).toNat = front.length := by
      rw [hfl]
      omega
    rw [htn, hfr, List.drop_left]
  have hreadE : readStep (fileOracle (joinNl (m0 :: mt)))
      (((joinNl (m0 :: mt)).length : Int) - 1) id =
      .ok (mkLines (((joinNl (m0 :: mt)).length : Int) - 1) [[]] 0, 0) := by
    rw [readStep, fileOracle]
    rw [if_neg (by omega), if_neg (by omega)]
    simp only [hdropE, Int.toNat_natCast, id_eq]
    rw [List.take_of_length_le (by simp [chunkSize])]
    rfl
  have hlast : ∀ rl' : Int, pullMsgs (fileOracle (joinNl (m0 :: mt))) 1
      ⟨"", "", .topToBottom, 0, ((joinNl (m0 :: mt)).length : Int) - 1, [], rl', true⟩ =
      ([], .eof) := by
    intro rl'
    have hrefillE : refill (fileOracle (joinNl (m0 :: mt)))
        ⟨"", "", .topToBottom, 0, ((joinNl (m0 :: mt)).length : Int) - 1, [], rl', true⟩ =
        .ok ⟨"", "", .topToBottom, 0, ((joinNl (m0 :: mt)).length : Int) - 1, [], rl', true⟩ := by
      rw [refill, hreadE]
      simp only
      rw [if_neg (by rw [mkLines_length]; decide)]
    rw [show (1 : Nat) = 0 + 1 from rfl, pullMsgs]
    rw [pull, if_neg (by simp), pullCore]
    simp only [List.isEmpty_nil, if_true, hrefillE]
    rfl
  -- Assembly
  rw [show (m0 :: mt).length + 1 =
      ((mkLines 0 mt (0 + (m0.length : Int) + 1)).length + 1) + 1 from by
    simp [mkLines_length]]
  rw [pullMsgs, hpull1]
  simp only
  rw [hdrain, mkLines_map_message, hlast]
  simp

/-- C3 (witness): the amended statement at the concrete two-line file
`"a\nb\n"`. -/
theorem C3_witness :
    2 ≤ ([[97], [98]] : List (List Nat)).length ∧
      (joinNl [[97], [98]]).length ≤ chunkSize ∧
      pullMsgs (fileOracle (joinNl [[97], [98]])) (([[97], [98]] : List (List Nat)).length + 1)
        ⟨"", "", .topToBottom, 0, 0, [], 0, true⟩ = ([[97], [98]], .eof) :=
  ⟨by decide, by decide, C3_replay [[97], [98]] (by decide) (by decide) (by decide)⟩

/-! ### Claim C8 — byte-exactness of the backward reversal -/

/-- C8 (counterexample): the byte `0xFF` is not valid UTF-8; Go's
rune-based `reverse` turns the 1-byte chunk `[0xFF]` into the 3-byte
replacement-character encoding, so the transform does not preserve the
byte length of arbitrary binary chunks. -/
theorem C8_counterexample :
    goReverse [255] = [239, 191, 189] ∧
      (goReverse [255]).length ≠ ([255] : List Nat).length := by decide

/-- C8 (amended): the byte-reversal transform preserves the total byte
length of every chunk that is valid UTF-8 (in the sense that Go's
decode–encode round trip is the identity on it); on pure ASCII chunks it
is moreover exact byte reversal, so every line's byte length is
preserved there.  For arbitrary binary bytes the claim fails: each
invalid byte is replaced by the 3-byte replacement rune, changing
lengths (see the counterexample). -/
theorem C8_reverse_length (s : List Nat) (h : encodeRunes (decodeRunes s) = s) :
    (goReverse s).length = s.length ∧
      ((∀ b ∈ s, b < 128) → goReverse s = s.reverse) := by
  constructor
  · rw [goReverse, encodeRunes_reverse_length]
    exact congrArg List.length h
  · intro hb
    exact goReverse_ascii s hb

/-- C8 (witness): the amended statement at the valid 3-byte UTF-8 chunk
`[0xE6, 0x97, 0xA5]` (one CJK character). -/
theorem C8_witness :
    encodeRunes (decodeRunes [230, 151, 165]) = [230, 151, 165] ∧
      (goReverse [230, 151, 165]).length = ([230, 151, 165] : List Nat).length :=
  ⟨by decide, (C8_reverse_length [230, 151, 165] (by decide)).1⟩

/-! ### Claim C9 — plain-text formatter without a MESSAGE field -/

/-- A journal entry as the formatters see it
(`sdjournal.JournalEntry`): a string-to-string field mapping, a cursor
token and two numeric timestamps. -/
structure JournalEntry where
  fields : String → Option String
  cursor : String
  monotonicTimestamp : Nat
  realtimeTimestamp : Nat

/-- `logTextEntry.String()` of `formatters.go`: space-joined fields plus
one trailing newline. -/
def logTextString (l : List String) : String :=
  String.intercalate " " l ++ "\n"

/-- `FormatText.FormatEntry` (lines 43–71 of `formatters.go`).  The
timestamp rendering (`time.Unix(...).Format(time.ANSIC)`) is a call into
Go's standard library, abstracted as the parameter `ansic`; it is only
invoked after the MESSAGE check.  The Go function never returns a
non-nil error, hence the `Except` is always `.ok`. -/
def formatTextEntry (ansic : Nat → String) (e : JournalEntry) : Except String String :=
  match e.fields "MESSAGE" with
  | none => .ok ""
  | some message =>
    let l1 := [ansic e.realtimeTimestamp]
    let l2 := l1 ++ (match e.fields "_HOSTNAME" with | some h => [h] | none => [])
    let l3 := l2 ++ (match e.fields "SYSLOG_IDENTIFIER" with | some s => [s] | none => [])
    let l4 := l3 ++ (match e.fields "_PID" with | some p => ["[" ++ p ++ "]"] | none => [])
    .ok (logTextString (l4 ++ [message]))

/-- C9: for every journal entry whose field mapping has no MESSAGE key,
the plain-text formatter returns empty output (zero bytes, no timestamp,
no trailing newline) and a nil error, regardless of any other fields
present. -/
theorem C9_no_message (ansic : Nat → String) (e : JournalEntry)
    (h : e.fields "MESSAGE" = none) : formatTextEntry ansic e = .ok "" := by
  rw [formatTextEntry, h]

/-- C9 (witness): an entry carrying a hostname, a syslog identifier and
a pid but no MESSAGE formats to the empty output. -/
theorem C9_witness :
    (⟨fun k => if k = "_HOSTNAME" then some "host" else
        if k = "SYSLOG_IDENTIFIER" then some "syslog" else
        if k = "_PID" then some "42" else none,
      "cursor1", 5, 1500000000000000⟩ : JournalEntry).fields "MESSAGE" = none ∧
      formatTextEntry (fun _ => "Mon Jan  2 15:04:05 2006")
        ⟨fun k => if k = "_HOSTNAME" then some "host" else
          if k = "SYSLOG_IDENTIFIER" then some "syslog" else
          if k = "_PID" then some "42" else none,
        "cursor1", 5, 1500000000000000⟩ = .ok "" :=
  ⟨by decide, C9_no_message _ _ (by decide)⟩

/-! ### Claim C10 — the v2 discovery redirect URL -/

/-- `nodeutil.CanonicalTaskID`, the fields `redirectURL` touches. -/
structure CanonicalTaskID where
  id : String
  agentID : String
  frameworkID : String
  executorID : String
  containerIDs : List String
  deriving DecidableEq, Repr

/-- The route base, constant `prefix` of `discovery.go`. -/
def basePath : String := "/system/v1/agent"

/-- `redirectURL` (lines 17–37 of `discovery.go`): builds the agent log
URL from the canonical task ID.  The Go code indexes
`ContainerIDs[len(ContainerIDs)-1]` without any emptiness check; an
empty list panics (index out of range), modelled as `none`.  On success
the Go function always returns a nil error. -/
def redirectURL (cid : CanonicalTaskID) (file : String) : Option String :=
  let isPod := cid.executorID ≠ ""
  let executorID := if isPod then cid.executorID else cid.id
  match cid.containerIDs.getLast? with
  | none => none
  | some taskID =>
    let taskLogURL := basePath ++ "/" ++ cid.agentID ++ "/logs/v2/task/frameworks/" ++
      cid.frameworkID ++ "/executors/" ++ executorID ++ "/runs/" ++ taskID ++ "/"
    if isPod then some (taskLogURL ++ "/tasks/" ++ cid.id ++ "/" ++ file)
    else some (taskLogURL ++ file)

/-- C10: `redirectURL` reads the last container ID unconditionally:
whenever the list is nonempty it produces a URL (and the Go error is
nil), and whenever the list is empty the index access is out of bounds
(a panic, modelled as `none`) — non-emptiness of `ContainerIDs` is a
precondition of this entry point. -/
theorem C10_redirect :
    (∀ (cid : CanonicalTaskID) (file : String), cid.containerIDs ≠ [] →
      (redirectURL cid file).isSome = true) ∧
    (∀ (cid : CanonicalTaskID) (file : String), cid.containerIDs = [] →
      redirectURL cid file = none) := by
  constructor
  · intro cid file h
    rw [redirectURL]
    rcases hg : cid.containerIDs.getLast? with _ | t
    · exact absurd (List.getLast?_eq_none_iff.mp hg) h
    · simp only [hg]
      split <;> rfl
  · intro cid file h
    rw [redirectURL]
    rw [show cid.containerIDs.getLast? = none from by rw [h]; rfl]

/-- C10 (witness): a two-container task ID yields a URL; an empty
container list yields the out-of-bounds result. -/
theorem C10_witness :
    (⟨"task", "agent", "fw", "exec", ["c1", "c2"]⟩ : CanonicalTaskID).containerIDs ≠ [] ∧
      (redirectURL ⟨"task", "agent", "fw", "exec", ["c1", "c2"]⟩ "stdout").isSome = true ∧
      redirectURL ⟨"task", "agent", "fw", "exec", []⟩ "stdout" = none :=
  ⟨by decide, C10_redirect.1 _ "stdout" (by decide), C10_redirect.2 _ "stdout" rfl⟩

/-! ### Claim C6 — construction errors and successes -/

/-- The reported trailing length of a split is zero, or strictly shorter
than the chunk it came from. -/
theorem splitChunk_delta_lt (s : List Nat) (off : Int) :
    (splitChunk s off).2 = 0 ∨ (splitChunk s off).2 < s.length := by
  rw [splitChunk]
  by_cases h : (splitOnNl s).length > 1
  · right
    simp only [if_pos h]
    have hid := intercalate_splitOnNl s
    have hdec := intercalate_eq_flatten_append (splitOnNl s) (splitOnNl_ne_nil s)
    have hdl : (splitOnNl s).dropLast ≠ [] := by
      intro hcon
      have := congrArg List.length hcon
      simp [List.length_dropLast] at this
      omega
    obtain ⟨q, rest, hqr⟩ : ∃ q rest, (splitOnNl s).dropLast = q :: rest := by
      cases hqq : (splitOnNl s).dropLast with
      | nil => exact absurd hqq hdl
      | cons q rest => exact ⟨q, rest, rfl⟩
    have hslen : s.length =
        (((splitOnNl s).dropLast.map (fun m => m ++ [10])).flatten).length +
          ((splitOnNl s).getLastD []).length := by
      conv_lhs => rw [← hid, hdec]
      simp
    rw [hqr] at hslen
    simp only [List.map_cons, List.flatten_cons, List.length_append] at hslen
    simp only [List.length_append, List.length_cons] at hslen
    omega
  · left
    simp only [if_neg h]

/-- With a healthy oracle over an ASCII file, the backward locator loop
always terminates successfully given fuel beyond the starting offset:
each iteration lowers the offset by at least one. -/
theorem locatorLoop_ok (file : List Nat) (hascii : ∀ b ∈ file, b < 128) (n : Int) :
    ∀ (fuel : Nat) (offset foundLines rmOffset : Int), offset.toNat < fuel →
      ∃ o, locatorLoop (fileOracle file) n fuel offset foundLines rmOffset = .ok o := by
  intro fuel
  induction fuel with
  | zero => intro offset fl ro h; omega
  | succ fuel ih =>
    intro offset fl ro h
    rw [locatorLoop]
    by_cases h1 : offset < 1
    · rw [if_pos h1]
      exact ⟨0, rfl⟩
    · rw [if_neg h1]
      have hread : readStep (fileOracle file) offset goReverse =
          .ok (splitChunk (goReverse ((file.drop offset.toNat).take (chunkSize : Int).toNat))
            offset) := by
        rw [readStep, fileOracle, if_neg (by omega), if_neg (by omega)]
      rw [hread]
      rcases hsp : splitChunk (goReverse ((file.drop offset.toNat).take (chunkSize : Int).toNat))
          offset with ⟨L, d⟩
      simp only
      by_cases h2 : fl + (L.length : Int) ≥ n
      · rw [if_pos h2]
        exact ⟨_, rfl⟩
      · rw [if_neg h2]
        have hdata : ((file.drop offset.toNat).take (chunkSize : Int).toNat).length ≤ chunkSize := by
          have h0 := List.length_take_le ((chunkSize : Int).toNat)
            (file.drop offset.toNat)
          rw [Int.toNat_natCast] at h0
          exact h0
        have hga : goReverse ((file.drop offset.toNat).take (chunkSize : Int).toNat) =
            ((file.drop offset.toNat).take (chunkSize : Int).toNat).reverse := by
          refine goReverse_ascii _ (fun b hb => hascii b ?_)
          exact List.mem_of_mem_drop (List.mem_of_mem_take hb)
        have hd : d = 0 ∨ d < chunkSize := by
          have := splitChunk_delta_lt
            (goReverse ((file.drop offset.toNat).take (chunkSize : Int).toNat)) offset
          rw [hsp] at this
          rcases this with h0 | hlt
          · exact Or.inl h0
          · right
            rw [hga] at hlt
            simp only [List.length_reverse] at hlt
            omega
        have hstep : (offset - ((chunkSize : Int) - (d : Int))).toNat < fuel := by
          have hc : (1 : Int) ≤ (chunkSize : Int) - (d : Int) := by
            rcases hd with h0 | hlt
            · rw [h0]
              simp [chunkSize]
            · have : (d : Int) < (chunkSize : Int) := by exact_mod_cast hlt
              omega
          omega
        exact ih _ _ _ hstep

/-- C6: construction returns an error exactly for invalid input: it
fails with `ErrEmptyParam` when any of the four required coordinates is
empty (checked first, for any oracle and direction); with the option
error when `maxLines ≤ 0` is requested (modelled from the spec — the
option constructors are not part of the sources at hand); and with a
fetch error when the Backward Locator's size probe fails.  Otherwise it
returns a cursor: always for `TopToBottom` (`taskPath` may be empty),
and for `BottomToTop` against a healthy endpoint serving an ASCII file,
given fuel beyond the file length (the Go loop has no fuel; over
non-UTF-8 content its offset decrement can degenerate, which is outside
this claim). -/
theorem C6_construct :
    (∀ (fetch : Oracle) (a f e c tp fn : String) (d : ReadDirection) (ml : Int) (st : Bool)
      (fuel : Nat), (a = "" ∨ f = "" ∨ e = "" ∨ c = "") →
      newLineReader fetch a f e c tp fn d ml st fuel = .error .emptyParam) ∧
    (∀ (fetch : Oracle) (a f e c tp fn : String) (d : ReadDirection) (ml : Int) (st : Bool)
      (fuel : Nat), a ≠ "" → f ≠ "" → e ≠ "" → c ≠ "" → ml ≤ 0 →
      newLineReader fetch a f e c tp fn d ml st fuel = .error .badMaxLines) ∧
    (∀ (a f e c tp fn : String) (ml : Int) (st : Bool) (fuel : Nat),
      a ≠ "" → f ≠ "" → e ≠ "" → c ≠ "" → 0 < ml →
      newLineReader failOracle a f e c tp fn .bottomToTop ml st fuel = .error .fetch) ∧
    (∀ (fetch : Oracle) (a f e c tp fn : String) (ml : Int) (st : Bool) (fuel : Nat),
      a ≠ "" → f ≠ "" → e ≠ "" → c ≠ "" → 0 < ml →
      (newLineReader fetch a f e c tp fn .topToBottom ml st fuel).toOption.isSome = true) ∧
    (∀ (file : List Nat) (a f e c tp fn : String) (ml : Int) (st : Bool),
      (∀ b ∈ file, b < 128) → a ≠ "" → f ≠ "" → e ≠ "" → c ≠ "" → 0 < ml →
      (newLineReader (fileOracle file) a f e c tp fn .bottomToTop ml st
        (file.length + 1)).toOption.isSome = true) := by
  refine ⟨?_, ?_, ?_, ?_, ?_⟩
  · intro fetch a f e c tp fn d ml st fuel h
    have hne : notEmpty [a, f, e, c] = false := by
      rw [notEmpty]
      apply decide_eq_false
      rintro ⟨-, hall⟩
      rcases h with h | h | h | h <;> exact hall _ (by simp) h
    rw [newLineReader, hne]
    simp
  · intro fetch a f e c tp fn d ml st fuel ha hf he hc hml
    have hne : notEmpty [a, f, e, c] = true := by simp [notEmpty, ha, hf, he, hc]
    rw [newLineReader, hne]
    simp only [not_true_eq_false, Bool.true_eq_false, if_false, reduceIte]
    rw [if_pos hml]
  · intro a f e c tp fn ml st fuel ha hf he hc hml
    have hne : notEmpty [a, f, e, c] = true := by simp [notEmpty, ha, hf, he, hc]
    rw [newLineReader, hne]
    simp only [not_true_eq_false, Bool.true_eq_false, if_false, reduceIte]
    rw [if_neg (by omega)]
    simp [failOracle]
  · intro fetch a f e c tp fn ml st fuel ha hf he hc hml
    have hne : notEmpty [a, f, e, c] = true := by simp [notEmpty, ha, hf, he, hc]
    rw [newLineReader, hne]
    simp only [not_true_eq_false, Bool.true_eq_false, if_false, reduceIte]
    rw [if_neg (by omega)]
    rfl
  · intro file a f e c tp fn ml st hascii ha hf he hc hml
    have hne : notEmpty [a, f, e, c] = true := by simp [notEmpty, ha, hf, he, hc]
    obtain ⟨o, ho⟩ := locatorLoop_ok file hascii ml (file.length + 1)
      ((file.length : Int) - (chunkSize : Int)) 0 (file.length : Int) (by omega)
    rw [newLineReader, hne]
    simp only [not_true_eq_false, Bool.true_eq_false, if_false, reduceIte]
    rw [if_neg (by omega)]
    simp only [reduceIte, fileOracle, reduceCtorEq]
    rw [ho]
    rfl

/-- C6 (witness): each part of the construction-error contract at a
concrete input — an empty agent ID, a zero line limit, a dead endpoint
in tail mode, and the two success paths. -/
theorem C6_witness :
    newLineReader (fileOracle [97, 10]) "" "fw" "ex" "ct" "" "out" .topToBottom 5 false 1 =
        .error .emptyParam ∧
      newLineReader (fileOracle [97, 10]) "ag" "fw" "ex" "ct" "" "out" .topToBottom 0 false 1 =
        .error .badMaxLines ∧
      newLineReader failOracle "ag" "fw" "ex" "ct" "" "out" .bottomToTop 5 false 1 =
        .error .fetch ∧
      (newLineReader (fileOracle [97, 10]) "ag" "fw" "ex" "ct" "" "out" .topToBottom 5 false
        1).toOption.isSome = true ∧
      (newLineReader (fileOracle [97, 10]) "ag" "fw" "ex" "ct" "" "out" .bottomToTop 5 false
        (([97, 10] : List Nat).length + 1)).toOption.isSome = true :=
  ⟨C6_construct.1 _ _ _ _ _ _ _ _ _ _ _ (Or.inl rfl),
    C6_construct.2.1 _ _ _ _ _ _ _ _ _ _ _ (by decide) (by decide) (by decide) (by decide)
      le_rfl,
    C6_construct.2.2.1 _ _ _ _ _ _ _ _ _ (by decide) (by decide) (by decide) (by decide)
      (by decide),
    C6_construct.2.2.2.1 _ _ _ _ _ _ _ _ _ _ (by decide) (by decide) (by decide) (by decide)
      (by decide),
    C6_construct.2.2.2.2 [97, 10] _ _ _ _ _ _ _ _ (by decide) (by decide) (by decide)
      (by decide) (by decide) (by decide)⟩

/-! ### Claim C7 — the offset range invariant -/

/-- A healthy fetch at a valid offset: one chunk slice, split. -/
theorem readStep_fileOracle (file : List Nat) (offset : Int) (modifier : List Nat → List Nat)
    (h1 : ¬ offset = -1) (h2 : ¬ offset < 0) :
    readStep (fileOracle file) offset modifier =
      .ok (splitChunk (modifier ((file.drop offset.toNat).take (chunkSize : Int).toNat))
        offset) := by
  rw [readStep, fileOracle, if_neg h1, if_neg h2]

/-- A 131073-byte remote file (one `'a'` line fragment, a terminator,
then 131071 times `'a'`) on which the Backward Locator drives the
cursor offset negative. -/
def c7File : List Nat := 97 :: 10 :: List.replicate 131071 97

theorem c7File_split : c7File = [97, 10] ++ List.replicate 131071 97 := rfl

theorem c7File_length : (c7File.length : Int) = 131073 := by
  rw [c7File_split, List.length_append, List.length_replicate]
  norm_num

theorem c7_read1 : readStep (fileOracle c7File) 65537 goReverse =
    .ok (mkLines 65537 [List.replicate 65536 97] 0, 0) := by
  rw [readStep_fileOracle _ _ _ (by norm_num) (by norm_num)]
  have hdata : ((c7File.drop ((65537 : Int)).toNat).take ((chunkSize : Int)).toNat) =
      List.replicate 65536 97 := by
    rw [show ((65537 : Int)).toNat = 65537 from rfl,
      show (65537 : Nat) = [97, 10].length + 65535 from rfl,
      Int.toNat_natCast, c7File_split, List.drop_append, List.drop_replicate,
      List.take_replicate]
    norm_num [chunkSize]
  rw [hdata]
  have hrev : goReverse (List.replicate 65536 97) = List.replicate 65536 97 := by
    rw [goReverse_ascii _ (fun b hb => by rw [List.eq_of_mem_replicate hb]; norm_num),
      List.reverse_replicate]
  rw [hrev]
  have hsp : splitOnNl (List.replicate 65536 97) = [List.replicate 65536 97] :=
    splitOnNl_no_nl _ (fun hmem => by have := List.eq_of_mem_replicate hmem; omega)
  rw [splitChunk, hsp]
  rfl

theorem c7_read2 : readStep (fileOracle c7File) 1 goReverse =
    .ok (mkLines 1 [List.replicate 65535 97] 0, 0) := by
  rw [readStep_fileOracle _ _ _ (by norm_num) (by norm_num)]
  have hdata : ((c7File.drop ((1 : Int)).toNat).take ((chunkSize : Int)).toNat) =
      10 :: List.replicate 65535 97 := by
    rw [show ((1 : Int)).toNat = 1 from rfl, Int.toNat_natCast]
    rw [c7File, List.drop_one, List.tail_cons]
    rw [show chunkSize = 65535 + 1 from rfl, List.take_succ_cons, List.take_replicate]
    norm_num
  rw [hdata]
  have hrev : goReverse (10 :: List.replicate 65535 97) =
      List.replicate 65535 97 ++ [10] := by
    rw [goReverse_ascii _ (fun b hb => by
      rcases List.mem_cons.mp hb with h | h
      · omega
      · rw [List.eq_of_mem_replicate h]; norm_num)]
    rw [List.reverse_cons, List.reverse_replicate]
  rw [hrev]
  have hsp : splitOnNl (List.replicate 65535 97 ++ [10]) =
      [List.replicate 65535 97, []] := by
    rw [splitOnNl_append_nl _ _
      (fun hmem => by have := List.eq_of_mem_replicate hmem; omega)]
    rfl
  rw [splitChunk, hsp]
  rfl

theorem c7_step2 : locatorLoop (fileOracle c7File) 2 2 1 1 1 = .ok (-65535) := by
  have htail : tailLinesLen (mkLines 1 [List.replicate 65535 97] 0) (2 - 1) = 65536 := by
    rw [tailLinesLen]
    rw [show (mkLines 1 [List.replicate 65535 97] 0).length - ((2 - 1 : Int)).toNat = 0 from
      rfl]
    rw [List.drop_zero]
    rw [show mkLines 1 [List.replicate 65535 97] 0 =
      [⟨List.replicate 65535 97, 1 + 0, (List.replicate 65535 97).length⟩] from rfl]
    simp only [List.map_cons, List.map_nil, List.sum_cons, List.sum_nil,
      List.length_replicate]
    norm_num
  rw [locatorLoop, if_neg (by norm_num), c7_read2]
  simp only
  rw [if_pos (by rw [mkLines_length]; norm_num)]
  rw [htail]
  norm_num

theorem c7_step1 : locatorLoop (fileOracle c7File) 2 3 65537 0 131073 = .ok (-65535) := by
  rw [locatorLoop, if_neg (by norm_num), c7_read1]
  simp only
  rw [if_neg (by rw [mkLines_length]; norm_num)]
  have harg1 : (65537 : Int) - ((chunkSize : Int) - ((0 : Nat) : Int)) = 1 := by
    norm_num [chunkSize]
  have harg2 : (0 : Int) + ((mkLines 65537 [List.replicate 65536 97] 0).length : Int) = 1 := by
    rw [mkLines_length]
    norm_num
  rw [harg1, harg2]
  exact c7_step2

/-- C7 (code bug): the Backward Locator can leave the cursor offset
negative, violating `0 ≤ offset ≤ fileSize`.  For the 131073-byte file
`c7File` and tail request N = 2, the first loop iteration counts the
terminator-free final chunk as one line and moves to offset 1; the
second iteration finds the boundary and subtracts the 65536-byte line
length from `rm.offset`, which by then holds the chunk start 1, giving
offset −65535. -/
theorem c7_main_aux (file : List Nat)
    (hstep : locatorLoop (fileOracle file) 2 3 ((file.length : Int) - (chunkSize : Int)) 0
      (file.length : Int) = .ok (-65535)) :
    (newLineReader (fileOracle file) "agent" "fw" "exec" "cont" "" "stdout"
      .bottomToTop 2 false 3).toOption.map RM.offset = some (-65535) := by
  have hne : notEmpty ["agent", "fw", "exec", "cont"] = true := by decide
  rw [newLineReader, hne]
  simp only [not_true_eq_false, Bool.true_eq_false, if_false, reduceIte]
  rw [if_neg (by norm_num)]
  simp only [reduceIte, fileOracle, reduceCtorEq]
  rw [hstep]
  rfl

theorem C7_negative_offset :
    (newLineReader (fileOracle c7File) "agent" "fw" "exec" "cont" "" "stdout"
        .bottomToTop 2 false 3).toOption.map RM.offset = some (-65535) ∧
      (-65535 : Int) < 0 := by
  refine ⟨c7_main_aux c7File ?_, by norm_num⟩
  rw [show (c7File.length : Int) - (chunkSize : Int) = 65537 from by
    rw [c7File_length]; norm_num [chunkSize]]
  rw [c7File_length]
  exact c7_step1
